import Mathlib

/-!
Verification development for the pyqtorch quantum-circuit simulation core.

The state is a complex amplitude tensor with one axis per qubit; we model a
single batch element as a function from bit assignments to `ℂ`.  The operator
contraction engine (`apply_operator`), the operator tree (`OpTree` with its
`forward` and `tensor` evaluators), Hamiltonian evolution, and the adjoint
differentiation engine are modelled below.  Only `primitive.py` of the package
sources is available; the remaining modules are modelled from the
specification, as noted on each definition.
-/

set_option maxHeartbeats 1000000

open Matrix

/-- Assignment of one boolean per qubit; indexes a single amplitude of an
`n`-qubit state.  The element at position `0` of a `qubit_support` is the most
significant bit of a basis index (big-endian-in-support convention). -/
abbrev Bits (n : ℕ) := Fin n → Bool

/-- Complex state-vector on `n` qubits (one batch element). -/
abbrev QState (n : ℕ) := Bits n → ℂ

/-- Complex `2^k × 2^k` operator matrix on `k` qubits, indexed by bit
assignments of the `k` supported qubits. -/
abbrev QMat (k : ℕ) := Matrix (Bits k) (Bits k) ℂ

/-- Parameter binding: a mapping from parameter name to a scalar value
(one batch element of the per-batch tensor). -/
abbrev Binding := String → ℝ

/-- Overwrite, inside a full bit assignment `b`, the bits of the supported
qubits `s` with the assignment `c` of the support. -/
noncomputable def writeBits {k n : ℕ} (s : Fin k ↪ Fin n) (b : Bits n) (c : Bits k) :
    Bits n :=
  fun j => if h : ∃ i, s i = j then c h.choose else b j

theorem writeBits_apply {k n : ℕ} (s : Fin k ↪ Fin n) (b : Bits n) (c : Bits k)
    (i : Fin k) : writeBits s b c (s i) = c i := by
  have h : ∃ i', s i' = s i := ⟨i, rfl⟩
  have hchoose : s h.choose = s i := h.choose_spec
  simp only [writeBits, dif_pos h]
  exact congrArg c (s.injective hchoose)

theorem writeBits_apply_off {k n : ℕ} (s : Fin k ↪ Fin n) (b : Bits n) (c : Bits k)
    {j : Fin n} (hj : ∀ i, s i ≠ j) : writeBits s b c j = b j := by
  simp only [writeBits]
  exact dif_neg (by push_neg; exact hj)

theorem writeBits_self {k n : ℕ} (s : Fin k ↪ Fin n) (b : Bits n) :
    writeBits s b (fun i => b (s i)) = b := by
  funext j
  by_cases h : ∃ i, s i = j
  · obtain ⟨i, hi⟩ := h
    subst hi
    rw [writeBits_apply]
  · exact writeBits_apply_off s b _ (by push_neg at h; exact h)

theorem writeBits_writeBits {k n : ℕ} (s : Fin k ↪ Fin n) (b : Bits n)
    (c c' : Bits k) : writeBits s (writeBits s b c) c' = writeBits s b c' := by
  funext j
  by_cases h : ∃ i, s i = j
  · obtain ⟨i, hi⟩ := h
    subst hi
    rw [writeBits_apply, writeBits_apply]
  · push_neg at h
    rw [writeBits_apply_off s _ _ h, writeBits_apply_off s _ _ h,
      writeBits_apply_off s _ _ h]

theorem writeBits_comp {k n : ℕ} (s : Fin k ↪ Fin n) (b : Bits n) (c : Bits k) :
    (fun i => writeBits s b c (s i)) = c := by
  funext i
  rw [writeBits_apply]

theorem writeBits_injective {k n : ℕ} (s : Fin k ↪ Fin n) (b : Bits n) :
    Function.Injective (writeBits s b) := by
  intro c c' h
  have := congrArg (fun f => fun i => f (s i)) h
  simpa [writeBits_comp] using this

/-- Modelled from the spec: the operator contraction engine of `apply.py`
(§4.1), which is not among the available sources.  It contracts a `2^k × 2^k`
matrix onto the `k` supported qubit axes of the state, broadcasting over the
remaining axes: the new amplitude at assignment `b` sums the matrix row
selected by the supported bits of `b` against the amplitudes at every
assignment of the supported bits, the remaining bits held fixed. -/
noncomputable def apply_operator {k n : ℕ} (state : QState n) (operator : QMat k)
    (qubit_support : Fin k ↪ Fin n) : QState n :=
  fun b => ∑ c : Bits k,
    operator (fun i => b (qubit_support i)) c * state (writeBits qubit_support b c)

/-- Modelled from the spec: the dense-matrix padding used by `tensor()` (§4.2),
which builds the matrix of a `k`-local operator on the full register by
identity padding on the unsupported qubits. -/
noncomputable def embedMat {k n : ℕ} (m : QMat k) (s : Fin k ↪ Fin n) : QMat n :=
  fun r c =>
    if ∀ j, (∀ i, s i ≠ j) → r j = c j then m (fun i => r (s i)) (fun i => c (s i))
    else 0

theorem embedMat_mulVec {k n : ℕ} (m : QMat k) (s : Fin k ↪ Fin n)
    (state : QState n) :
    (embedMat m s).mulVec state = apply_operator state m s := by
  funext b
  have key : ∀ b' ∈ Finset.univ,
      b' ∉ Finset.image (writeBits s b) Finset.univ → embedMat m s b b' * state b' = 0 := by
    intro b' _ hb'
    have hzero : embedMat m s b b' = 0 := by
      rw [embedMat, if_neg]
      intro hall
      apply hb'
      refine Finset.mem_image.mpr ⟨fun i => b' (s i), Finset.mem_univ _, ?_⟩
      funext j
      by_cases h : ∃ i, s i = j
      · obtain ⟨i, hi⟩ := h
        subst hi
        rw [writeBits_apply]
      · push_neg at h
        rw [writeBits_apply_off s _ _ h]
        exact hall j h
    rw [hzero, zero_mul]
  have step1 : (embedMat m s).mulVec state b
      = ∑ b' ∈ Finset.image (writeBits s b) Finset.univ, embedMat m s b b' * state b' := by
    rw [Matrix.mulVec, dotProduct]
    exact (Finset.sum_subset (Finset.subset_univ _) key).symm
  rw [step1, Finset.sum_image (fun x _ y _ h => writeBits_injective s b h)]
  show _ = apply_operator state m s b
  rw [apply_operator]
  apply Finset.sum_congr rfl
  intro c _
  have hcond : ∀ j, (∀ i, s i ≠ j) → b j = writeBits s b c j := by
    intro j hj
    rw [writeBits_apply_off s _ _ hj]
  have hentry : embedMat m s b (writeBits s b c) = m (fun i => b (s i)) c := by
    rw [embedMat, if_pos hcond, writeBits_comp]
  rw [hentry]

theorem apply_operator_apply_operator {k n : ℕ} (state : QState n)
    (m₂ m₁ : QMat k) (s : Fin k ↪ Fin n) :
    apply_operator (apply_operator state m₂ s) m₁ s
      = apply_operator state (m₁ * m₂) s := by
  funext b
  rw [apply_operator, apply_operator]
  have inner : ∀ c : Bits k,
      apply_operator state m₂ s (writeBits s b c)
        = ∑ c' : Bits k, m₂ c c' * state (writeBits s b c') := by
    intro c
    rw [apply_operator]
    apply Finset.sum_congr rfl
    intro c' _
    rw [writeBits_comp, writeBits_writeBits]
  calc
    ∑ c : Bits k, m₁ (fun i => b (s i)) c * apply_operator state m₂ s (writeBits s b c)
      = ∑ c : Bits k, ∑ c' : Bits k,
          m₁ (fun i => b (s i)) c * (m₂ c c' * state (writeBits s b c')) := by
        apply Finset.sum_congr rfl
        intro c _
        rw [inner c, Finset.mul_sum]
    _ = ∑ c' : Bits k, ∑ c : Bits k,
          m₁ (fun i => b (s i)) c * m₂ c c' * state (writeBits s b c') := by
        rw [Finset.sum_comm]
        apply Finset.sum_congr rfl
        intro c _
        apply Finset.sum_congr rfl
        intro c' _
        ring
    _ = ∑ c' : Bits k, (m₁ * m₂) (fun i => b (s i)) c' * state (writeBits s b c') := by
        apply Finset.sum_congr rfl
        intro c' _
        rw [Matrix.mul_apply, Finset.sum_mul]

theorem apply_operator_one {k n : ℕ} (state : QState n) (s : Fin k ↪ Fin n) :
    apply_operator state (1 : QMat k) s = state := by
  funext b
  rw [apply_operator]
  have : ∀ c : Bits k, (1 : QMat k) (fun i => b (s i)) c * state (writeBits s b c)
      = if (fun i => b (s i)) = c then state (writeBits s b c) else 0 := by
    intro c
    rw [Matrix.one_apply]
    by_cases h : (fun i => b (s i)) = c <;> simp [h]
  rw [Finset.sum_congr rfl (fun c _ => this c), Finset.sum_ite_eq]
  simp [writeBits_self]

theorem mulVec_ext {ι : Type} [Fintype ι] [DecidableEq ι] {M N : Matrix ι ι ℂ}
    (h : ∀ v : ι → ℂ, M.mulVec v = N.mulVec v) : M = N := by
  ext r c
  have hv := congrFun (h (Pi.single c 1)) r
  simpa [Matrix.mulVec_single] using hv

theorem embedMat_mul {k n : ℕ} (m₁ m₂ : QMat k) (s : Fin k ↪ Fin n) :
    embedMat (m₁ * m₂) s = embedMat m₁ s * embedMat m₂ s := by
  apply mulVec_ext
  intro v
  rw [embedMat_mulVec, ← Matrix.mulVec_mulVec, embedMat_mulVec, embedMat_mulVec,
    apply_operator_apply_operator]

theorem embedMat_one {k n : ℕ} (s : Fin k ↪ Fin n) :
    embedMat (1 : QMat k) s = 1 := by
  apply mulVec_ext
  intro v
  rw [embedMat_mulVec, apply_operator_one, Matrix.one_mulVec]

theorem embedMat_add {k n : ℕ} (m₁ m₂ : QMat k) (s : Fin k ↪ Fin n) :
    embedMat (m₁ + m₂) s = embedMat m₁ s + embedMat m₂ s := by
  ext r c
  rw [Matrix.add_apply, embedMat, embedMat, embedMat]
  by_cases h : ∀ j, (∀ i, s i ≠ j) → r j = c j
  · rw [if_pos h, if_pos h, if_pos h, Matrix.add_apply]
  · rw [if_neg h, if_neg h, if_neg h, add_zero]

theorem embedMat_zero {k n : ℕ} (s : Fin k ↪ Fin n) :
    embedMat (0 : QMat k) s = 0 := by
  ext r c
  rw [embedMat]
  by_cases h : ∀ j, (∀ i, s i ≠ j) → r j = c j
  · rw [if_pos h, Matrix.zero_apply, Matrix.zero_apply]
  · rw [if_neg h, Matrix.zero_apply]

theorem embedMat_conjTranspose {k n : ℕ} (m : QMat k) (s : Fin k ↪ Fin n) :
    embedMat mᴴ s = (embedMat m s)ᴴ := by
  ext r c
  rw [Matrix.conjTranspose_apply, embedMat, embedMat]
  have hiff : (∀ j, (∀ i, s i ≠ j) → r j = c j) ↔ (∀ j, (∀ i, s i ≠ j) → c j = r j) := by
    constructor <;> intro h j hj <;> exact (h j hj).symm
  by_cases h : ∀ j, (∀ i, s i ≠ j) → r j = c j
  · rw [if_pos h, if_pos (hiff.mp h), Matrix.conjTranspose_apply]
  · rw [if_neg h, if_neg (fun h' => h (hiff.mpr h')), star_zero]

theorem embedMat_unitary {k n : ℕ} (m : QMat k) (s : Fin k ↪ Fin n)
    (hm : mᴴ * m = 1) : (embedMat m s)ᴴ * embedMat m s = 1 := by
  rw [← embedMat_conjTranspose, ← embedMat_mul, hm, embedMat_one]

theorem apply_operator_refl {n : ℕ} (state : QState n) (m : QMat n) :
    apply_operator state m (Function.Embedding.refl (Fin n)) = m.mulVec state := by
  funext b
  rw [apply_operator, Matrix.mulVec, dotProduct]
  apply Finset.sum_congr rfl
  intro c _
  have hw : writeBits (Function.Embedding.refl (Fin n)) b c = c := by
    funext j
    have := writeBits_apply (Function.Embedding.refl (Fin n)) b c j
    simpa using this
  rw [hw]
  rfl

/-- Primitive operator descriptor: qubit support plus the `unitary(values)`
matrix supplier (§3, §6); concrete gates of the external catalog instantiate
this interface. -/
structure PrimOp (n : ℕ) where
  k : ℕ
  qubit_support : Fin k ↪ Fin n
  unitary : Binding → QMat k

/-- Modelled from the spec: the operator-tree variants of §3 implemented in the
missing `circuit.py`/`analog.py` modules: Primitive, the identity gate `I`
(whose `forward` bypasses the contraction engine, `primitive.py` lines 97-102),
Scale, Sequence, Add, and Merge (whose children share one support by
construction, storing their matrix suppliers). -/
inductive OpTree (n : ℕ) : Type where
  | prim (g : PrimOp n) : OpTree n
  | ident (target : Fin n) : OpTree n
  | scale (coeff : Binding → ℂ) (child : OpTree n) : OpTree n
  | seq (children : List (OpTree n)) : OpTree n
  | add (children : List (OpTree n)) : OpTree n
  | merge (k : ℕ) (s : Fin k ↪ Fin n) (mats : List (Binding → QMat k)) : OpTree n

/-- Product of a list of operator matrices in reverse list order (the matrix of
the last list element is leftmost), matching the order in which a Sequence
applies its children. -/
noncomputable def matProdRev {k : ℕ} : List (QMat k) → QMat k
  | [] => 1
  | m :: ms => matProdRev ms * m

/-- Modelled from the spec: depth-first evaluation `forward(tree, state,
values)` of §4.2.  Sequence applies children left to right, Add sums the
children applied to the same input, Scale multiplies by the resolved scalar,
Merge applies the precomputed product of its children's matrices once, and the
identity gate returns its input unchanged. -/
noncomputable def OpTree.forward {n : ℕ} : OpTree n → QState n → Binding → QState n
  | .prim g, state, values => apply_operator state (g.unitary values) g.qubit_support
  | .ident _, state, _ => state
  | .scale coeff t, state, values => coeff values • t.forward state values
  | .seq [], state, _ => state
  | .seq (t :: ts), state, values => (OpTree.seq ts).forward (t.forward state values) values
  | .add [], _, _ => 0
  | .add (t :: ts), state, values => t.forward state values + (OpTree.add ts).forward state values
  | .merge _ s mats, state, values =>
      apply_operator state (matProdRev (mats.map (fun u => u values))) s

/-- Modelled from the spec: `tensor(tree, full_support)` of §4.2 at full
support, building the dense matrix of the tree by identity padding of each leaf
matrix and recursive combination. -/
noncomputable def OpTree.tensor {n : ℕ} : OpTree n → Binding → QMat n
  | .prim g, values => embedMat (g.unitary values) g.qubit_support
  | .ident target, _ =>
      embedMat (1 : QMat 1) ⟨fun _ => target, fun a b _ => Subsingleton.elim a b⟩
  | .scale coeff t, values => coeff values • t.tensor values
  | .seq [], _ => 1
  | .seq (t :: ts), values => (OpTree.seq ts).tensor values * t.tensor values
  | .add [], _ => 0
  | .add (t :: ts), values => t.tensor values + (OpTree.add ts).tensor values
  | .merge _ s mats, values => embedMat (matProdRev (mats.map (fun u => u values))) s

theorem forward_eq_tensor {n : ℕ} :
    ∀ (t : OpTree n) (state : QState n) (values : Binding),
      t.forward state values = (t.tensor values).mulVec state
  | .prim g, state, values => by
      rw [OpTree.forward, OpTree.tensor, embedMat_mulVec]
  | .ident target, state, values => by
      rw [OpTree.forward, OpTree.tensor, embedMat_mulVec, apply_operator_one]
  | .scale coeff t, state, values => by
      rw [OpTree.forward, OpTree.tensor, forward_eq_tensor t state values,
        Matrix.smul_mulVec_assoc]
  | .seq [], state, values => by
      rw [OpTree.forward, OpTree.tensor, Matrix.one_mulVec]
  | .seq (t :: ts), state, values => by
      rw [OpTree.forward, OpTree.tensor,
        forward_eq_tensor t state values,
        forward_eq_tensor (OpTree.seq ts) ((t.tensor values).mulVec state) values,
        Matrix.mulVec_mulVec]
  | .add [], state, values => by
      rw [OpTree.forward, OpTree.tensor, Matrix.zero_mulVec]
  | .add (t :: ts), state, values => by
      rw [OpTree.forward, OpTree.tensor,
        forward_eq_tensor t state values,
        forward_eq_tensor (OpTree.add ts) state values,
        Matrix.add_mulVec]
  | .merge _ s mats, state, values => by
      rw [OpTree.forward, OpTree.tensor, embedMat_mulVec]

theorem embedMat_matProdRev {k n : ℕ} (s : Fin k ↪ Fin n) :
    ∀ l : List (QMat k),
      embedMat (matProdRev l) s = matProdRev (l.map (fun m => embedMat m s))
  | [] => by rw [matProdRev, List.map_nil, matProdRev, embedMat_one]
  | m :: ms => by
      rw [matProdRev, List.map_cons, matProdRev, embedMat_mul,
        embedMat_matProdRev s ms]

theorem tensor_seq_prim {k n : ℕ} (s : Fin k ↪ Fin n) (values : Binding) :
    ∀ mats : List (Binding → QMat k),
      (OpTree.seq (mats.map (fun u => OpTree.prim ⟨k, s, u⟩))).tensor values
        = matProdRev (mats.map (fun u => embedMat (u values) s))
  | [] => by rw [List.map_nil, OpTree.tensor, List.map_nil, matProdRev]
  | u :: us => by
      rw [List.map_cons, OpTree.tensor, List.map_cons, matProdRev,
        tensor_seq_prim s values us, OpTree.tensor]

/-- C2: for every operator tree shape (Primitive, identity, Scale, Sequence,
Add, Merge), every state on `n` qubits and every parameter binding, evaluating
the tree with `forward` equals applying the dense matrix built by `tensor` at
full support to the state by matrix-vector multiplication. -/
theorem c2_forward_eq_tensor_mulVec {n : ℕ} (t : OpTree n) (state : QState n)
    (values : Binding) :
    t.forward state values = (t.tensor values).mulVec state :=
  forward_eq_tensor t state values

/-- C3: applying a Merge of children that share one qubit support produces the
same state as applying the Sequence of the same children, for every state and
every parameter binding: the precomputed matrix product is an optimization with
no semantic change. -/
theorem c3_merge_eq_sequence {n k : ℕ} (s : Fin k ↪ Fin n)
    (mats : List (Binding → QMat k)) (state : QState n) (values : Binding) :
    (OpTree.merge k s mats).forward state values
      = (OpTree.seq (mats.map (fun u => OpTree.prim ⟨k, s, u⟩))).forward state values := by
  rw [forward_eq_tensor, forward_eq_tensor, tensor_seq_prim, OpTree.tensor,
    embedMat_matProdRev, List.map_map]
  rfl

/-- C10: the identity gate's `forward` returns the input state unchanged,
bypassing the contraction engine, so applying `I` is the identity function on
states, for every target qubit, state and parameter binding. -/
theorem c10_identity_forward {n : ℕ} (target : Fin n) (state : QState n)
    (values : Binding) :
    (OpTree.ident target).forward state values = state := by
  rw [OpTree.forward]

/-- Qubit support of a primitive descriptor, as the ordered list of its qubit
indices (the tuple `qubit_support` of the source). -/
def supportList {n : ℕ} (g : PrimOp n) : List (Fin n) :=
  (List.finRange g.k).map g.qubit_support

theorem supportList_k_eq {n : ℕ} {g g' : PrimOp n}
    (h : supportList g' = supportList g) : g'.k = g.k := by
  have hlen := congrArg List.length h
  simpa [supportList] using hlen

/-- Transport a `k'`-qubit matrix along an equality of qubit counts. -/
def castQMat {k' k : ℕ} (h : k' = k) (m : QMat k') : QMat k := h ▸ m

/-- Modelled from the spec: the validating `Merge` constructor of §4.2,
implemented in the missing `circuit.py`.  Construction fails with a validation
error unless all children's qubit supports are pairwise identical; on success
it builds the merge node over the common support, storing the children's matrix
suppliers.  No state or binding is consumed: validation happens at construction
time, before any evaluation. -/
noncomputable def Merge {n : ℕ} (operations : List (PrimOp n)) :
    Except String (OpTree n) :=
  match operations with
  | [] => Except.error "Merge requires a non-empty list of operations sharing one qubit support"
  | g :: gs =>
    if h : ∀ g' ∈ gs, supportList g' = supportList g then
      Except.ok (OpTree.merge g.k g.qubit_support
        ((g :: gs).attach.map (fun x => fun values =>
          castQMat
            (supportList_k_eq (by
              rcases List.mem_cons.mp x.2 with h1 | h1
              · rw [h1]
              · exact h _ h1))
            (x.1.unitary values))))
    else Except.error "Can only merge operations acting on the same qubit support"

/-- C4: for every list of child operators whose qubit supports are not pairwise
identical, constructing a Merge node fails with a validation error at
construction time (no state or parameter binding is ever consumed), not at
evaluation time. -/
theorem c4_merge_mismatch_fails {n : ℕ} (operations : List (PrimOp n))
    (g₁ g₂ : PrimOp n) (h₁ : g₁ ∈ operations) (h₂ : g₂ ∈ operations)
    (hne : supportList g₁ ≠ supportList g₂) :
    ∃ msg, Merge operations = Except.error msg := by
  cases operations with
  | nil => cases h₁
  | cons g gs =>
    have hcond : ¬ ∀ g' ∈ gs, supportList g' = supportList g := by
      intro hall
      have e1 : supportList g₁ = supportList g := by
        rcases List.mem_cons.mp h₁ with h | h
        · rw [h]
        · exact hall _ h
      have e2 : supportList g₂ = supportList g := by
        rcases List.mem_cons.mp h₂ with h | h
        · rw [h]
        · exact hall _ h
      exact hne (e1.trans e2.symm)
    rw [Merge, dif_neg hcond]
    exact ⟨_, rfl⟩

/-- Example primitive descriptor acting on qubit 0 of a 2-qubit register. -/
noncomputable def exPrim0 : PrimOp 2 :=
  ⟨1, ⟨fun _ => 0, fun a b _ => Subsingleton.elim a b⟩, fun _ => 1⟩

/-- Example primitive descriptor acting on qubit 1 of a 2-qubit register. -/
noncomputable def exPrim1 : PrimOp 2 :=
  ⟨1, ⟨fun _ => 1, fun a b _ => Subsingleton.elim a b⟩, fun _ => 1⟩

theorem c4_merge_mismatch_fails_witness :
    ∃ msg, Merge [exPrim0, exPrim1] = Except.error msg :=
  c4_merge_mismatch_fails [exPrim0, exPrim1] exPrim0 exPrim1
    (by simp) (by simp)
    (by
      intro h
      have h0 := congrArg (fun l => l.head?) h
      simp [supportList, exPrim0, exPrim1, List.finRange] at h0)

/-- Modelled from the spec: the normalization check of the missing `utils.py`:
a state is normalized when its squared amplitudes sum to 1 (§3). -/
noncomputable def is_normalized {n : ℕ} (state : QState n) : Prop :=
  ∑ b, Complex.normSq (state b) = 1

theorem sum_normSq_eq_re_dot {ι : Type} [Fintype ι] (v : ι → ℂ) :
    ∑ b, Complex.normSq (v b) = (dotProduct (star v) v).re := by
  rw [dotProduct, Complex.re_sum]
  apply Finset.sum_congr rfl
  intro b _
  simp [Complex.mul_re, Complex.normSq_apply]

theorem dot_mulVec_unitary {ι : Type} [Fintype ι] [DecidableEq ι]
    (M : Matrix ι ι ℂ) (hM : Mᴴ * M = 1) (v : ι → ℂ) :
    dotProduct (star (M.mulVec v)) (M.mulVec v) = dotProduct (star v) v := by
  rw [Matrix.star_mulVec, Matrix.dotProduct_mulVec, Matrix.vecMul_vecMul, hM,
    Matrix.vecMul_one]

theorem is_normalized_apply_operator {k n : ℕ} {state : QState n} {m : QMat k}
    (s : Fin k ↪ Fin n) (hm : mᴴ * m = 1) (hst : is_normalized state) :
    is_normalized (apply_operator state m s) := by
  rw [is_normalized, ← embedMat_mulVec, sum_normSq_eq_re_dot,
    dot_mulVec_unitary _ (embedMat_unitary m s hm), ← sum_normSq_eq_re_dot]
  exact hst

/-- Modelled from the spec: the zero computational-basis state of the missing
`utils.py`, with a single unit amplitude at the all-zero bit assignment. -/
noncomputable def zero_state (n : ℕ) : QState n :=
  fun b => if b = (fun _ => false) then 1 else 0

theorem is_normalized_zero_state (n : ℕ) : is_normalized (zero_state n) := by
  rw [is_normalized]
  have h : ∀ b : Bits n, Complex.normSq (zero_state n b)
      = if b = (fun _ => false) then 1 else 0 := by
    intro b
    rw [zero_state]
    by_cases hb : b = (fun _ => false) <;> simp [hb]
  rw [Finset.sum_congr rfl (fun b _ => h b), Finset.sum_ite_eq']
  simp

/-- C5: a sequence of purely unitary primitive operators applied to a
normalized state yields a normalized state: the squared amplitudes still sum
to 1 (exactly, hence within any floating tolerance). -/
theorem c5_unitary_sequence_normalized {n : ℕ} (gs : List (PrimOp n))
    (values : Binding)
    (hu : ∀ g ∈ gs, (g.unitary values)ᴴ * g.unitary values = 1)
    (state : QState n) (hst : is_normalized state) :
    is_normalized ((OpTree.seq (gs.map OpTree.prim)).forward state values) := by
  induction gs generalizing state with
  | nil =>
    rw [List.map_nil, OpTree.forward]
    exact hst
  | cons g gs ih =>
    rw [List.map_cons, OpTree.forward, OpTree.forward]
    exact ih (fun g' hg' => hu g' (List.mem_cons_of_mem g hg'))
      (apply_operator state (g.unitary values) g.qubit_support)
      (is_normalized_apply_operator g.qubit_support
        (hu g (List.mem_cons_self g gs)) hst)

/-- Example primitive descriptor on a 1-qubit register with identity matrix. -/
noncomputable def exPrimId1 : PrimOp 1 :=
  ⟨1, Function.Embedding.refl (Fin 1), fun _ => 1⟩

theorem c5_unitary_sequence_normalized_witness :
    is_normalized ((OpTree.seq ([exPrimId1].map OpTree.prim)).forward
      (zero_state 1) (fun _ => 0)) :=
  c5_unitary_sequence_normalized [exPrimId1] (fun _ => 0)
    (by
      intro g hg
      rw [List.mem_singleton] at hg
      subst hg
      simp [exPrimId1])
    (zero_state 1) (is_normalized_zero_state 1)

/-- Numeric basis index of a bit assignment: position 0 of the support is the
most significant bit, so bit 0 of the index corresponds to the last element of
the support (big-endian-in-support convention, §4.1). -/
def toIdx {k : ℕ} (b : Bits k) : ℕ :=
  ∑ i : Fin k, if b i then 2 ^ (k - 1 - i.val) else 0

theorem toIdx_zero (k : ℕ) : toIdx (fun _ => false : Bits k) = 0 := by
  simp [toIdx]

/-- Modelled from the spec: Hamiltonian evolution (§4.3, the missing
`analog.py`): resolve the generator to a matrix, compute `U = exp(-i·G·t)`,
and apply `U` through the contraction engine on the generator's support. -/
noncomputable def HamiltonianEvolution {n k : ℕ} (qubit_support : Fin k ↪ Fin n)
    (H : QMat k) (t : ℝ) (state : QState n) : QState n :=
  apply_operator state (NormedSpace.exp ℂ ((-(Complex.I * (t : ℂ))) • H))
    qubit_support

theorem exp_block_zero {ι : Type} [Fintype ι] [DecidableEq ι] (f : ι → Bool)
    (M : Matrix ι ι ℂ) (hM : ∀ r c, f r ≠ f c → M r c = 0) :
    ∀ r c, f r ≠ f c → NormedSpace.exp ℂ M r c = 0 := by
  set D : Matrix ι ι ℂ := Matrix.diagonal (fun i => if f i then -1 else 1) with hD
  have hcomm : Commute M D := by
    show M * D = D * M
    ext r c
    rw [Matrix.mul_diagonal, Matrix.diagonal_mul]
    by_cases h : f r = f c
    · rw [h]
      ring
    · rw [hM r c h]
      ring
  have hcommexp : Commute (NormedSpace.exp ℂ M) D := hcomm.exp_left ℂ
  intro r c hf
  have hentry : (NormedSpace.exp ℂ M * D) r c = (D * NormedSpace.exp ℂ M) r c := by
    rw [hcommexp.eq]
  rw [Matrix.mul_diagonal, Matrix.diagonal_mul] at hentry
  cases hfr : f r <;> cases hfc : f c
  · exact absurd (hfr.trans hfc.symm) hf
  · rw [hfr, hfc, if_pos rfl, if_neg Bool.false_ne_true] at hentry
    have h2 : (2 : ℂ) * NormedSpace.exp ℂ M r c = 0 := by
      linear_combination - hentry
    exact (mul_eq_zero.mp h2).resolve_left two_ne_zero
  · rw [hfr, hfc, if_pos rfl, if_neg Bool.false_ne_true] at hentry
    have h2 : (2 : ℂ) * NormedSpace.exp ℂ M r c = 0 := by
      linear_combination hentry
    exact (mul_eq_zero.mp h2).resolve_left two_ne_zero
  · exact absurd (hfr.trans hfc.symm) hf

theorem mulVec_zero_state {n : ℕ} (M : QMat n) (b : Bits n) :
    M.mulVec (zero_state n) b = M b (fun _ => false) := by
  rw [Matrix.mulVec, dotProduct]
  have h : ∀ c : Bits n, M b c * zero_state n c
      = if c = (fun _ => false) then M b c else 0 := by
    intro c
    rw [zero_state]
    by_cases hc : c = (fun _ => false) <;> simp [hc]
  rw [Finset.sum_congr rfl (fun c _ => h c), Finset.sum_ite_eq']
  simp

theorem hamevo_block_zero {n : ℕ} (f : Bits n → Bool) (H : QMat n) (t : ℝ)
    (hH : ∀ r c, f r ≠ f c → H r c = 0) (b : Bits n)
    (hb : f b ≠ f (fun _ => false)) :
    HamiltonianEvolution (Function.Embedding.refl (Fin n)) H t (zero_state n) b
      = 0 := by
  rw [HamiltonianEvolution, apply_operator_refl, mulVec_zero_state]
  apply exp_block_zero f _ _ _ _ hb
  intro r c hrc
  rw [Matrix.smul_apply, hH r c hrc, smul_zero]

/-- C6: for a 2-qubit Hamiltonian evolution applied to `zero_state 2`, if the
generator has zero coupling between basis indices of different parity (bit 0
of the index, i.e. the last qubit of the support), the output amplitudes at
odd basis indices are exactly zero; if it has zero coupling between basis
indices differing in bit 1 (the first qubit of the support), the output
amplitudes at basis indices 2 and 3 are exactly zero.  This fixes the
convention that bit 0 of the matrix index corresponds to the last element of
`qubit_support`. -/
theorem c6_hamevo_endianness (H : QMat 2) (t : ℝ) :
    ((∀ r c : Bits 2, toIdx r % 2 ≠ toIdx c % 2 → H r c = 0) →
      ∀ b : Bits 2, toIdx b % 2 = 1 →
        HamiltonianEvolution (Function.Embedding.refl (Fin 2)) H t
          (zero_state 2) b = 0)
    ∧ ((∀ r c : Bits 2, toIdx r / 2 ≠ toIdx c / 2 → H r c = 0) →
      ∀ b : Bits 2, toIdx b / 2 = 1 →
        HamiltonianEvolution (Function.Embedding.refl (Fin 2)) H t
          (zero_state 2) b = 0) := by
  constructor
  · intro hH b hb
    apply hamevo_block_zero (fun r => decide (toIdx r % 2 = 1)) H t
    · intro r c hrc
      apply hH
      intro heq
      exact hrc (by rw [heq])
    · rw [toIdx_zero]
      simp [hb]
  · intro hH b hb
    apply hamevo_block_zero (fun r => decide (toIdx r / 2 = 1)) H t
    · intro r c hrc
      apply hH
      intro heq
      exact hrc (by rw [heq])
    · rw [toIdx_zero]
      simp [hb]

theorem c6_hamevo_endianness_witness :
    HamiltonianEvolution (Function.Embedding.refl (Fin 2)) (1 : QMat 2) 1
      (zero_state 2) ![false, true] = 0
    ∧ HamiltonianEvolution (Function.Embedding.refl (Fin 2)) (1 : QMat 2) 1
      (zero_state 2) ![true, false] = 0 := by
  have hone : ∀ (p : Bits 2 → ℕ) (r c : Bits 2), p r ≠ p c → (1 : QMat 2) r c = 0 := by
    intro p r c h
    apply Matrix.one_apply_ne
    intro hrc
    exact h (by rw [hrc])
  constructor
  · exact (c6_hamevo_endianness (1 : QMat 2) 1).1
      (hone (fun r => toIdx r % 2)) ![false, true] (by decide)
  · exact (c6_hamevo_endianness (1 : QMat 2) 1).2
      (hone (fun r => toIdx r / 2)) ![true, false] (by decide)

/-- Modelled from the spec: the uniform superposition state of the missing
`utils.py`: every amplitude equals `1 / sqrt (2 ^ n)`. -/
noncomputable def uniform_state (n : ℕ) : QState n :=
  fun _ => ((1 / Real.sqrt (2 ^ n) : ℝ) : ℂ)

/-- Modelled from the spec: the conjugate inner product `⟨bra|ket⟩` of the
missing `utils.py`. -/
noncomputable def inner_prod {n : ℕ} (bra ket : QState n) : ℂ :=
  dotProduct (star bra) ket

/-- Number of set bits of a bit assignment. -/
def hammingWt {n : ℕ} (b : Bits n) : ℕ :=
  (Finset.univ.filter (fun i => b i = true)).card

/-- Diagonal entry of `Z⊗…⊗Z`: the product over qubits of `-1` on a set bit
and `1` on a clear bit (the Kronecker product of `diag(1,-1)` factors). -/
noncomputable def pauliZSign {n : ℕ} (b : Bits n) : ℂ :=
  ∏ i : Fin n, (if b i then -1 else 1)

/-- Generator `H = Z⊗Z⊗Z⊗Z` on 4 qubits of the Hamiltonian overlap test. -/
noncomputable def zzzz : QMat 4 :=
  Matrix.diagonal pauliZSign

theorem pauliZSign_eq_pow {n : ℕ} (b : Bits n) :
    pauliZSign b = (-1 : ℂ) ^ hammingWt b := by
  rw [pauliZSign, Finset.prod_ite, Finset.prod_const, Finset.prod_const,
    one_pow, mul_one, hammingWt]

theorem c7_inner_eq :
    inner_prod (uniform_state 4)
      (HamiltonianEvolution (Function.Embedding.refl (Fin 4)) zzzz (Real.pi / 4)
        (uniform_state 4))
      = ((Real.sqrt 2 / 2 : ℝ) : ℂ) := by
  have hsqrt : Real.sqrt ((2 : ℝ) ^ (4 : ℕ)) = 4 := by
    rw [show ((2 : ℝ) ^ (4 : ℕ)) = 4 ^ 2 by norm_num]
    exact Real.sqrt_sq (by norm_num)
  have hq : uniform_state 4 = fun _ => ((1 / 4 : ℝ) : ℂ) := by
    funext b
    rw [uniform_state, hsqrt]
  set θ : ℂ := ((Real.pi / 4 : ℝ) : ℂ) with hθ
  have hdiag : (-(Complex.I * θ)) • zzzz
      = Matrix.diagonal (fun b => -(Complex.I * θ) * pauliZSign b) := by
    rw [zzzz, ← Matrix.diagonal_smul]
    congr 1
  have hexp : NormedSpace.exp ℂ ((-(Complex.I * θ)) • zzzz)
      = Matrix.diagonal (fun b => Complex.exp (-(Complex.I * θ) * pauliZSign b)) := by
    have harg : NormedSpace.exp ℂ (fun b : Bits 4 => -(Complex.I * θ) * pauliZSign b)
        = fun b : Bits 4 => Complex.exp (-(Complex.I * θ) * pauliZSign b) := by
      funext b
      rw [Pi.coe_exp, Complex.exp_eq_exp_ℂ]
    rw [hdiag, Matrix.exp_diagonal, harg]
  have hstate : HamiltonianEvolution (Function.Embedding.refl (Fin 4)) zzzz
      (Real.pi / 4) (uniform_state 4)
      = fun b => Complex.exp (-(Complex.I * θ) * pauliZSign b) * ((1 / 4 : ℝ) : ℂ) := by
    rw [HamiltonianEvolution, apply_operator_refl, ← hθ, hexp]
    funext b
    rw [Matrix.mulVec_diagonal, hq]
  rw [inner_prod, hstate, hq, dotProduct]
  have hterm : ∀ b : Bits 4,
      star (fun _ : Bits 4 => ((1 / 4 : ℝ) : ℂ)) b
          * ((fun b : Bits 4 =>
              Complex.exp (-(Complex.I * θ) * pauliZSign b) * ((1 / 4 : ℝ) : ℂ)) b)
        = ((1 / 16 : ℝ) : ℂ) * Complex.exp (-(Complex.I * θ) * pauliZSign b) := by
    intro b
    show star (((1 / 4 : ℝ) : ℂ))
        * (Complex.exp (-(Complex.I * θ) * pauliZSign b) * ((1 / 4 : ℝ) : ℂ)) = _
    rw [Complex.star_def, Complex.conj_ofReal]
    push_cast
    ring
  rw [Finset.sum_congr rfl (fun b _ => hterm b), ← Finset.mul_sum]
  have hsplit : ∑ b : Bits 4, Complex.exp (-(Complex.I * θ) * pauliZSign b)
      = 8 * Complex.exp (-θ * Complex.I) + 8 * Complex.exp (θ * Complex.I) := by
    rw [← Finset.sum_filter_add_sum_filter_not Finset.univ
      (fun b : Bits 4 => hammingWt b % 2 = 0)]
    have heven : ∀ b ∈ Finset.univ.filter (fun b : Bits 4 => hammingWt b % 2 = 0),
        Complex.exp (-(Complex.I * θ) * pauliZSign b) = Complex.exp (-θ * Complex.I) := by
      intro b hb
      rw [Finset.mem_filter] at hb
      rw [pauliZSign_eq_pow, (Nat.even_iff.mpr hb.2).neg_one_pow]
      ring_nf
    have hodd : ∀ b ∈ Finset.univ.filter (fun b : Bits 4 => ¬hammingWt b % 2 = 0),
        Complex.exp (-(Complex.I * θ) * pauliZSign b) = Complex.exp (θ * Complex.I) := by
      intro b hb
      rw [Finset.mem_filter] at hb
      have hoddn : Odd (hammingWt b) := Nat.odd_iff.mpr (by omega)
      rw [pauliZSign_eq_pow, hoddn.neg_one_pow]
      ring_nf
    rw [Finset.sum_congr rfl heven, Finset.sum_congr rfl hodd,
      Finset.sum_const, Finset.sum_const]
    have hc1 : (Finset.univ.filter (fun b : Bits 4 => hammingWt b % 2 = 0)).card = 8 := by
      decide
    have hc2 : (Finset.univ.filter (fun b : Bits 4 => ¬hammingWt b % 2 = 0)).card = 8 := by
      decide
    rw [hc1, hc2, nsmul_eq_mul, nsmul_eq_mul]
    norm_num
  rw [hsplit]
  have hcos : Complex.exp (-θ * Complex.I) + Complex.exp (θ * Complex.I)
      = 2 * Complex.cos θ := by
    rw [Complex.exp_mul_I, Complex.exp_mul_I, Complex.cos_neg, Complex.sin_neg]
    ring
  have hcosval : Complex.cos θ = ((Real.sqrt 2 / 2 : ℝ) : ℂ) := by
    rw [hθ, ← Complex.ofReal_cos, Real.cos_pi_div_four]
  calc ((1 / 16 : ℝ) : ℂ) * (8 * Complex.exp (-θ * Complex.I) + 8 * Complex.exp (θ * Complex.I))
      = ((1 / 16 : ℝ) : ℂ) * (8 * (Complex.exp (-θ * Complex.I) + Complex.exp (θ * Complex.I))) := by
        ring
    _ = ((1 / 16 : ℝ) : ℂ) * (8 * (2 * Complex.cos θ)) := by rw [hcos]
    _ = Complex.cos θ := by
        push_cast
        ring
    _ = ((Real.sqrt 2 / 2 : ℝ) : ℂ) := hcosval

/-- C7 counterexample: evolving the 4-qubit uniform state under `Z⊗Z⊗Z⊗Z` for
time `π/4` gives `|⟨ψ_initial|ψ_final⟩| = √2/2 ≈ 0.7071`, not `0.5`: the claim
as stated (about the modulus of the inner product) is false. -/
theorem c7_overlap_modulus_ne_half :
    Complex.abs (inner_prod (uniform_state 4)
      (HamiltonianEvolution (Function.Embedding.refl (Fin 4)) zzzz (Real.pi / 4)
        (uniform_state 4))) ≠ 1 / 2 := by
  rw [c7_inner_eq, Complex.abs_ofReal,
    abs_of_nonneg (by positivity : (0 : ℝ) ≤ Real.sqrt 2 / 2)]
  intro h
  have h1 : Real.sqrt 2 = 1 := by linarith
  have h2 : Real.sqrt 2 ^ 2 = 2 := Real.sq_sqrt (by norm_num)
  rw [h1] at h2
  norm_num at h2

/-- C7 amended: evolving the 4-qubit uniform state under `Z⊗Z⊗Z⊗Z` for time
`π/4` gives squared overlap `|⟨ψ_initial|ψ_final⟩|² = 0.5` (the `overlap`
checked by the test is the squared modulus of the inner product). -/
theorem c7_overlap_sq_eq_half :
    Complex.abs (inner_prod (uniform_state 4)
      (HamiltonianEvolution (Function.Embedding.refl (Fin 4)) zzzz (Real.pi / 4)
        (uniform_state 4))) ^ 2 = 1 / 2 := by
  rw [c7_inner_eq, Complex.abs_ofReal,
    abs_of_nonneg (by positivity : (0 : ℝ) ≤ Real.sqrt 2 / 2), div_pow,
    Real.sq_sqrt (by norm_num : (0 : ℝ) ≤ 2)]
  norm_num

/-- Modelled from the spec: the projector matrix `|ket⟩⟨bra|` of the gate
catalog (§4.2): one-hot outer product in the support's big-endian bit
ordering (first bitstring character = first support element). -/
noncomputable def projMat {k : ℕ} (ket bra : Bits k) : QMat k :=
  fun r c => if r = ket ∧ c = bra then 1 else 0

/-- Modelled from the spec: the CNOT matrix of the gate catalog on support
(control, target): the control bit is preserved and the target bit is flipped
exactly when the control bit is set. -/
noncomputable def cnotMat : QMat 2 :=
  fun r c => if r 0 = c 0 ∧ r 1 = xor (c 0) (c 1) then 1 else 0

/-- Modelled from the spec: the SWAP matrix of the gate catalog, exchanging
the two supported qubits. -/
noncomputable def swapMat : QMat 2 :=
  fun r c => if r 0 = c 1 ∧ r 1 = c 0 then 1 else 0

theorem proj_sum_cnot :
    projMat ![false, false] ![false, false]
      + (projMat ![false, true] ![false, true]
        + (projMat ![true, false] ![true, true]
          + projMat ![true, true] ![true, false]))
      = cnotMat := by
  ext r c
  cases h0 : r 0 <;> cases h1 : r 1 <;> cases h2 : c 0 <;> cases h3 : c 1 <;>
    simp [projMat, cnotMat, funext_iff, Fin.forall_fin_two, h0, h1, h2, h3]

theorem proj_sum_swap :
    projMat ![false, false] ![false, false]
      + (projMat ![false, true] ![true, false]
        + (projMat ![true, false] ![false, true]
          + projMat ![true, true] ![true, true]))
      = swapMat := by
  ext r c
  cases h0 : r 0 <;> cases h1 : r 1 <;> cases h2 : c 0 <;> cases h3 : c 1 <;>
    simp [projMat, swapMat, funext_iff, Fin.forall_fin_two, h0, h1, h2, h3]

/-- C8: on any pair of qubits `(a, b)` (any embedding of 2 qubits into the
register), the dense matrix of the Add of the four projectors
`|00⟩⟨00| + |01⟩⟨01| + |10⟩⟨11| + |11⟩⟨10|` equals the dense matrix of
`CNOT(a, b)`, and the analogous projector sum with `01`/`10` swapped as
bra/ket equals the dense matrix of `SWAP(a, b)`. -/
theorem c8_projector_decomposition {n : ℕ} (s : Fin 2 ↪ Fin n) (values : Binding) :
    ((OpTree.add
        [OpTree.prim ⟨2, s, fun _ => projMat ![false, false] ![false, false]⟩,
         OpTree.prim ⟨2, s, fun _ => projMat ![false, true] ![false, true]⟩,
         OpTree.prim ⟨2, s, fun _ => projMat ![true, false] ![true, true]⟩,
         OpTree.prim ⟨2, s, fun _ => projMat ![true, true] ![true, false]⟩]).tensor values
      = (OpTree.prim ⟨2, s, fun _ => cnotMat⟩).tensor values)
    ∧ ((OpTree.add
        [OpTree.prim ⟨2, s, fun _ => projMat ![false, false] ![false, false]⟩,
         OpTree.prim ⟨2, s, fun _ => projMat ![false, true] ![true, false]⟩,
         OpTree.prim ⟨2, s, fun _ => projMat ![true, false] ![false, true]⟩,
         OpTree.prim ⟨2, s, fun _ => projMat ![true, true] ![true, true]⟩]).tensor values
      = (OpTree.prim ⟨2, s, fun _ => swapMat⟩).tensor values) := by
  constructor
  · simp only [OpTree.tensor]
    rw [add_zero, ← embedMat_add, ← embedMat_add, ← embedMat_add]
    exact congrArg (fun m => embedMat m s) proj_sum_cnot
  · simp only [OpTree.tensor]
    rw [add_zero, ← embedMat_add, ← embedMat_add, ← embedMat_add]
    exact congrArg (fun m => embedMat m s) proj_sum_swap

/-- The object built by a successful `CSWAP.__init__` (`primitive.py` lines
149-159): the stored control tuple, target tuple, and the resulting
`qubit_support = control ++ target`. -/
structure CSWAPGate where
  control : List ℕ
  target : List ℕ
  qubit_support : List ℕ

/-- Constructor of the CSWAP gate, `primitive.py` lines 149-159: raises a
validation error unless the target is a tuple of exactly two qubits; otherwise
the qubit support is the control qubits followed by the two target qubits. -/
def CSWAP (control : List ℕ) (target : List ℕ) : Except String CSWAPGate :=
  if target.length ≠ 2 then
    Except.error "Target qubits must be a tuple with two qubits"
  else
    Except.ok ⟨control, target, control ++ target⟩

/-- C9: constructing a CSWAP whose target is not exactly 2 qubits fails with a
validation error at construction time; for every 2-qubit target the
construction succeeds and the resulting `qubit_support` is the control qubits
followed by the two target qubits. -/
theorem c9_cswap_validation (control : List ℕ) (target : List ℕ) :
    (target.length ≠ 2 → ∃ msg, CSWAP control target = Except.error msg)
    ∧ (target.length = 2 →
        CSWAP control target
          = Except.ok ⟨control, target, control ++ target⟩) := by
  constructor
  · intro h
    rw [CSWAP, if_pos h]
    exact ⟨_, rfl⟩
  · intro h
    rw [CSWAP, if_neg (by rw [h]; exact fun hc => hc rfl)]

theorem c9_cswap_validation_witness :
    (∃ msg, CSWAP [0] [1] = Except.error msg)
    ∧ CSWAP [0] [1, 2] = Except.ok ⟨[0], [1, 2], [0, 1, 2]⟩ :=
  ⟨(c9_cswap_validation [0] [1]).1 (by decide),
    (c9_cswap_validation [0] [1, 2]).2 rfl⟩

/-- Parametric unitary operator of a circuit handed to the adjoint engine
(§4.4): its qubit support, the name of its parameter, its `unitary` matrix as
a function of the bound parameter value, and the analytic derivative of that
matrix with respect to its own parameter (`jacobian`, §6). -/
structure AdjOp (n : ℕ) where
  k : ℕ
  qubit_support : Fin k ↪ Fin n
  param_name : String
  unitary : ℝ → QMat k
  jacobian : ℝ → QMat k

/-- Fixed-matrix primitive of an observable given as a Sequence of Primitives
(a `Primitive.unitary` ignores the parameter binding). -/
structure ObsOp (n : ℕ) where
  k : ℕ
  qubit_support : Fin k ↪ Fin n
  matrix : QMat k

/-- Modelled from the spec: the forward sweep of §4.4 step 1 (the missing
adjoint module): apply each operator of the circuit, in order, through the
contraction engine. -/
noncomputable def run_circuit {n : ℕ} : List (AdjOp n) → QState n → Binding → QState n
  | [], state, _ => state
  | op :: rest, state, values =>
      run_circuit rest
        (apply_operator state (op.unitary (values op.param_name)) op.qubit_support)
        values

/-- Dense matrix of an observable expressed as a Sequence of Primitives: the
reverse-order product of the identity-padded child matrices. -/
noncomputable def obs_mat {n : ℕ} (obs : List (ObsOp n)) : QMat n :=
  matProdRev (obs.map (fun o => embedMat o.matrix o.qubit_support))

/-- Modelled from the spec: the expectation value `⟨ψ_T|O|ψ_T⟩` (real part)
computed by the expectation evaluator (§4.4 step 4, §6); standard automatic
differentiation differentiates through this forward computation. -/
noncomputable def expectation {n : ℕ} (ops : List (AdjOp n)) (state : QState n)
    (values : Binding) (obs : List (ObsOp n)) : ℝ :=
  (inner_prod (run_circuit ops state values)
    ((obs_mat obs).mulVec (run_circuit ops state values))).re

/-- Modelled from the spec: the reverse sweep of §4.4 step 3, walking the
operator list in reverse order (the head of the list here is the operator
applied last).  Each step undoes the forward step with the operator's dagger,
adds `Re 2⟨λ|dU/dθ|ψ⟩` to the running gradient of the operator's parameter
(so a parameter bound at several positions accumulates all its occurrences),
and propagates the backward state through the dagger. -/
noncomputable def reverse_sweep {n : ℕ} :
    List (AdjOp n) → QState n → QState n → Binding → String → ℝ
  | [], _, _, _, _ => 0
  | op :: rest, psi, lam, values, p =>
      (if op.param_name = p then
        2 * (inner_prod lam
          (apply_operator
            (apply_operator psi ((op.unitary (values op.param_name))ᴴ)
              op.qubit_support)
            (op.jacobian (values op.param_name)) op.qubit_support)).re
      else 0)
      + reverse_sweep rest
          (apply_operator psi ((op.unitary (values op.param_name))ᴴ) op.qubit_support)
          (apply_operator lam ((op.unitary (values op.param_name))ᴴ) op.qubit_support)
          values p

/-- Modelled from the spec: `adjoint_gradient(circuit, state, values,
observable) -> (expectation, gradients)` of §4.4: a forward sweep, the
backward seed `λ_T = O·ψ_T`, and the reverse sweep. -/
noncomputable def adjoint_gradient {n : ℕ} (ops : List (AdjOp n)) (state : QState n)
    (values : Binding) (obs : List (ObsOp n)) : ℝ × (String → ℝ) :=
  ((inner_prod (run_circuit ops state values)
      ((obs_mat obs).mulVec (run_circuit ops state values))).re,
   reverse_sweep ops.reverse (run_circuit ops state values)
     ((obs_mat obs).mulVec (run_circuit ops state values)) values)

/-- Full-register matrix of a circuit given as a reverse-ordered operator list
(head = operator applied last): the product of the identity-padded unitaries. -/
noncomputable def circ_mat {n : ℕ} : List (AdjOp n) → Binding → QMat n
  | [], _ => 1
  | op :: rest, values =>
      embedMat (op.unitary (values op.param_name)) op.qubit_support
        * circ_mat rest values

/-- Formal derivative of `circ_mat` with respect to the parameter named `p`
(product rule: one summand per occurrence of `p`). -/
noncomputable def circ_mat_deriv {n : ℕ} : List (AdjOp n) → Binding → String → QMat n
  | [], _, _ => 0
  | op :: rest, values, p =>
      (if op.param_name = p then
        embedMat (op.jacobian (values op.param_name)) op.qubit_support
      else 0) * circ_mat rest values
      + embedMat (op.unitary (values op.param_name)) op.qubit_support
          * circ_mat_deriv rest values p

theorem circ_mat_append {n : ℕ} (values : Binding) (op : AdjOp n) :
    ∀ l : List (AdjOp n),
      circ_mat (l ++ [op]) values
        = circ_mat l values
            * embedMat (op.unitary (values op.param_name)) op.qubit_support
  | [] => by
      rw [List.nil_append, circ_mat, circ_mat, circ_mat, mul_one, one_mul]
  | o :: rest => by
      rw [List.cons_append, circ_mat, circ_mat_append values op rest, circ_mat,
        mul_assoc]

theorem run_circuit_eq_mulVec {n : ℕ} (values : Binding) :
    ∀ (ops : List (AdjOp n)) (state : QState n),
      run_circuit ops state values = (circ_mat ops.reverse values).mulVec state
  | [], state => by
      rw [run_circuit, List.reverse_nil, circ_mat, Matrix.one_mulVec]
  | op :: rest, state => by
      rw [run_circuit, run_circuit_eq_mulVec values rest, List.reverse_cons,
        circ_mat_append, ← embedMat_mulVec, Matrix.mulVec_mulVec]

theorem inner_prod_conjTranspose {n : ℕ} (A : QMat n) (u v : QState n) :
    inner_prod (Aᴴ.mulVec u) v = inner_prod u (A.mulVec v) := by
  rw [inner_prod, inner_prod, Matrix.star_mulVec, Matrix.conjTranspose_conjTranspose,
    Matrix.dotProduct_mulVec]

theorem inner_prod_zero {n : ℕ} (u : QState n) : inner_prod u 0 = 0 := by
  rw [inner_prod]
  exact Matrix.dotProduct_zero _

theorem inner_prod_add {n : ℕ} (u v w : QState n) :
    inner_prod u (v + w) = inner_prod u v + inner_prod u w := by
  rw [inner_prod, inner_prod, inner_prod]
  exact Matrix.dotProduct_add _ _ _

theorem reverse_sweep_eq {n : ℕ} (values : Binding) (p : String) :
    ∀ l : List (AdjOp n),
      (∀ op ∈ l, (op.unitary (values op.param_name))ᴴ
        * op.unitary (values op.param_name) = 1) →
      ∀ (phi lam : QState n),
        reverse_sweep l ((circ_mat l values).mulVec phi) lam values p
          = 2 * (inner_prod lam ((circ_mat_deriv l values p).mulVec phi)).re
  | [], _, phi, lam => by
      rw [reverse_sweep, circ_mat_deriv, Matrix.zero_mulVec, inner_prod_zero]
      simp
  | op :: rest, hU, phi, lam => by
      have hop := hU op (List.mem_cons_self op rest)
      have hrest := fun o ho => hU o (List.mem_cons_of_mem op ho)
      have hpsi : apply_operator ((circ_mat (op :: rest) values).mulVec phi)
          ((op.unitary (values op.param_name))ᴴ) op.qubit_support
          = (circ_mat rest values).mulVec phi := by
        rw [← embedMat_mulVec, embedMat_conjTranspose, circ_mat,
          Matrix.mulVec_mulVec, ← mul_assoc, embedMat_unitary _ _ hop, one_mul]
      rw [reverse_sweep, hpsi,
        reverse_sweep_eq values p rest hrest phi
          (apply_operator lam ((op.unitary (values op.param_name))ᴴ) op.qubit_support),
        circ_mat_deriv, Matrix.add_mulVec, inner_prod_add, Complex.add_re, mul_add]
      congr 1
      · by_cases hp : op.param_name = p
        · rw [if_pos hp, if_pos hp, ← embedMat_mulVec, ← Matrix.mulVec_mulVec]
        · rw [if_neg hp, if_neg hp, zero_mul, Matrix.zero_mulVec, inner_prod_zero]
          simp
      · rw [← embedMat_mulVec, embedMat_conjTranspose, inner_prod_conjTranspose,
          Matrix.mulVec_mulVec]

theorem hasDerivAt_re {f : ℝ → ℂ} {d : ℂ} {x : ℝ} (h : HasDerivAt f d x) :
    HasDerivAt (fun t => (f t).re) d.re x := by
  have hcomp := (Complex.reCLM.hasFDerivAt (x := f x)).comp_hasDerivAt x h
  simpa using hcomp

theorem hasDerivAt_conj {f : ℝ → ℂ} {d : ℂ} {x : ℝ} (h : HasDerivAt f d x) :
    HasDerivAt (fun t => (starRingEnd ℂ) (f t)) ((starRingEnd ℂ) d) x := by
  have hcomp :=
    (Complex.conjCLE.toContinuousLinearMap.hasFDerivAt (x := f x)).comp_hasDerivAt x h
  simpa using hcomp

theorem embed_entry_hasDerivAt {k n : ℕ} (s : Fin k ↪ Fin n) (values : Binding)
    (p pname : String) (U DU : ℝ → QMat k)
    (hD : ∀ r c, HasDerivAt (fun θ => U θ r c) (DU (values pname) r c)
      (values pname))
    (r j : Bits n) :
    HasDerivAt (fun θ => embedMat (U (Function.update values p θ pname)) s r j)
      ((if pname = p then embedMat (DU (values pname)) s else 0) r j)
      (values p) := by
  by_cases hp : pname = p
  · subst hp
    simp only [Function.update_same, eq_self_iff_true, if_true, embedMat]
    by_cases hcond : ∀ jj, (∀ i, s i ≠ jj) → r jj = j jj
    · simp only [if_pos hcond]
      exact hD _ _
    · simp only [if_neg hcond]
      exact hasDerivAt_const (values pname) (0 : ℂ)
  · simp only [Function.update_noteq hp, if_neg hp, Matrix.zero_apply]
    exact hasDerivAt_const _ _

theorem circ_mat_entry_hasDerivAt {n : ℕ} (values : Binding) (p : String) :
    ∀ l : List (AdjOp n),
      (∀ op ∈ l, ∀ r c, HasDerivAt (fun θ => op.unitary θ r c)
        (op.jacobian (values op.param_name) r c) (values op.param_name)) →
      ∀ r c : Bits n,
        HasDerivAt (fun θ => circ_mat l (Function.update values p θ) r c)
          (circ_mat_deriv l values p r c) (values p)
  | [], _, r, c => by
      simp only [circ_mat, circ_mat_deriv, Matrix.zero_apply]
      exact hasDerivAt_const _ _
  | op :: rest, hD, r, c => by
      have hrest := circ_mat_entry_hasDerivAt values p rest
        (fun o ho => hD o (List.mem_cons_of_mem op ho))
      have hhead := fun j => embed_entry_hasDerivAt op.qubit_support values p
        op.param_name op.unitary op.jacobian (hD op (List.mem_cons_self op rest)) r j
      simp only [circ_mat, circ_mat_deriv, Matrix.mul_apply, Matrix.add_apply]
      rw [← Finset.sum_add_distrib]
      apply HasDerivAt.sum
      intro j _
      have hmul := (hhead j).mul (hrest j c)
      simpa [Function.update_eq_self] using hmul

theorem hasDerivAt_star {f : ℝ → ℂ} {d : ℂ} {x : ℝ} (h : HasDerivAt f d x) :
    HasDerivAt (fun t => star (f t)) (star d) x := by
  have hcomp :=
    (Complex.conjCLE.toContinuousLinearMap.hasFDerivAt (x := f x)).comp_hasDerivAt x h
  simpa [Complex.conjCLE_apply, Complex.star_def] using hcomp

theorem hasDerivAt_mulVec {ι : Type} [Fintype ι] (M : Matrix ι ι ℂ) {f : ℝ → ι → ℂ}
    {f' : ι → ℂ} {x : ℝ} (hf : ∀ c, HasDerivAt (fun t => f t c) (f' c) x) (b : ι) :
    HasDerivAt (fun t => M.mulVec (f t) b) (M.mulVec f' b) x := by
  show HasDerivAt (fun t => ∑ c, M b c * f t c) (∑ c, M b c * f' c) x
  exact HasDerivAt.sum (fun c _ => (hf c).const_mul (M b c))

theorem hasDerivAt_inner_prod {n : ℕ} {f g : ℝ → QState n} {f' g' : QState n}
    {x : ℝ} (hf : ∀ b, HasDerivAt (fun t => f t b) (f' b) x)
    (hg : ∀ b, HasDerivAt (fun t => g t b) (g' b) x) :
    HasDerivAt (fun t => inner_prod (f t) (g t))
      (inner_prod f' (g x) + inner_prod (f x) g') x := by
  have hsum : inner_prod f' (g x) + inner_prod (f x) g'
      = ∑ b, (star (f' b) * g x b + star (f x b) * g' b) := by
    rw [Finset.sum_add_distrib]
    rfl
  show HasDerivAt (fun t => ∑ b, star (f t b) * g t b) _ x
  rw [hsum]
  exact HasDerivAt.sum (fun b _ => (hasDerivAt_star (hf b)).mul (hg b))

theorem re_inner_sum {n : ℕ} (O : QMat n) (hO : O.IsHermitian) (x y : QState n) :
    (inner_prod y (O.mulVec x) + inner_prod x (O.mulVec y)).re
      = 2 * (inner_prod (O.mulVec x) y).re := by
  have h1 : inner_prod y (O.mulVec x) = star (inner_prod (O.mulVec x) y) := by
    rw [inner_prod, inner_prod, Matrix.star_dotProduct]
  have h2 : inner_prod x (O.mulVec y) = inner_prod (O.mulVec x) y := by
    rw [inner_prod, inner_prod, Matrix.dotProduct_mulVec, Matrix.star_mulVec, hO.eq]
  rw [h1, h2, Complex.add_re, Complex.star_def, Complex.conj_re]
  ring

/-- C1: for every circuit of unitary parametric operators, every initial
state, every observable expressed as a Sequence of Primitives with Hermitian
dense matrix, every parameter binding and every parameter name `p`, the
adjoint engine returns the same expectation value as the forward expectation
that standard automatic differentiation differentiates, and its gradient for
`p` is exactly the derivative of that expectation with respect to the value
bound to `p` (so the two engines agree exactly, hence within tolerance
`1e-5`).  Because updating `p` moves every operator whose parameter name is
`p`, a name bound at multiple positions accumulates the contribution of each
occurrence, matching automatic differentiation. -/
theorem c1_adjoint_ad_parity {n : ℕ} (ops : List (AdjOp n)) (state : QState n)
    (values : Binding) (obs : List (ObsOp n)) (p : String)
    (hU : ∀ op ∈ ops, (op.unitary (values op.param_name))ᴴ
      * op.unitary (values op.param_name) = 1)
    (hD : ∀ op ∈ ops, ∀ r c, HasDerivAt (fun θ => op.unitary θ r c)
      (op.jacobian (values op.param_name) r c) (values op.param_name))
    (hO : (obs_mat obs).IsHermitian) :
    (adjoint_gradient ops state values obs).1 = expectation ops state values obs
    ∧ HasDerivAt (fun θ => expectation ops state (Function.update values p θ) obs)
        ((adjoint_gradient ops state values obs).2 p) (values p) := by
  constructor
  · rfl
  · have hUrev : ∀ op ∈ ops.reverse, (op.unitary (values op.param_name))ᴴ
        * op.unitary (values op.param_name) = 1 :=
      fun op hop => hU op (List.mem_reverse.mp hop)
    have hDrev : ∀ op ∈ ops.reverse, ∀ r c,
        HasDerivAt (fun θ => op.unitary θ r c)
          (op.jacobian (values op.param_name) r c) (values op.param_name) :=
      fun op hop => hD op (List.mem_reverse.mp hop)
    have hψ : ∀ b : Bits n, HasDerivAt
        (fun θ => (circ_mat ops.reverse (Function.update values p θ)).mulVec state b)
        ((circ_mat_deriv ops.reverse values p).mulVec state b) (values p) := by
      intro b
      show HasDerivAt
        (fun θ => ∑ c, circ_mat ops.reverse (Function.update values p θ) b c * state c)
        (∑ c, circ_mat_deriv ops.reverse values p b c * state c) (values p)
      exact HasDerivAt.sum (fun c _ =>
        (circ_mat_entry_hasDerivAt values p ops.reverse hDrev b c).mul_const (state c))
    have hE := hasDerivAt_inner_prod hψ
      (fun b => hasDerivAt_mulVec (obs_mat obs) hψ b)
    rw [Function.update_eq_self] at hE
    have hfun : (fun θ => expectation ops state (Function.update values p θ) obs)
        = fun θ =>
          (inner_prod ((circ_mat ops.reverse (Function.update values p θ)).mulVec state)
            ((obs_mat obs).mulVec
              ((circ_mat ops.reverse (Function.update values p θ)).mulVec state))).re := by
      funext θ
      rw [expectation, run_circuit_eq_mulVec]
    have hval : (adjoint_gradient ops state values obs).2 p
        = (inner_prod ((circ_mat_deriv ops.reverse values p).mulVec state)
            ((obs_mat obs).mulVec ((circ_mat ops.reverse values).mulVec state))
          + inner_prod ((circ_mat ops.reverse values).mulVec state)
              ((obs_mat obs).mulVec
                ((circ_mat_deriv ops.reverse values p).mulVec state))).re := by
      have hsweep : (adjoint_gradient ops state values obs).2 p
          = reverse_sweep ops.reverse ((circ_mat ops.reverse values).mulVec state)
              ((obs_mat obs).mulVec ((circ_mat ops.reverse values).mulVec state))
              values p := by
        show reverse_sweep ops.reverse (run_circuit ops state values)
            ((obs_mat obs).mulVec (run_circuit ops state values)) values p = _
        rw [run_circuit_eq_mulVec]
      rw [hsweep,
        reverse_sweep_eq values p ops.reverse hUrev state
          ((obs_mat obs).mulVec ((circ_mat ops.reverse values).mulVec state)),
        re_inner_sum (obs_mat obs) hO ((circ_mat ops.reverse values).mulVec state)
          ((circ_mat_deriv ops.reverse values p).mulVec state)]
    rw [hfun, hval]
    exact hasDerivAt_re hE

/-- Example parametric operator for the adjoint parity witness: identity
unitary with zero derivative, parameter name `t`. -/
noncomputable def exAdjOp : AdjOp 1 :=
  ⟨1, Function.Embedding.refl (Fin 1), "t", fun _ => 1, fun _ => 0⟩

theorem c1_adjoint_ad_parity_witness :
    (adjoint_gradient [exAdjOp] (zero_state 1) (fun _ => 0)
        ([] : List (ObsOp 1))).1
      = expectation [exAdjOp] (zero_state 1) (fun _ => 0) []
    ∧ HasDerivAt
        (fun θ => expectation [exAdjOp] (zero_state 1)
          (Function.update (fun _ => 0) "t" θ) [])
        ((adjoint_gradient [exAdjOp] (zero_state 1) (fun _ => 0) []).2 "t")
        (0 : ℝ) :=
  c1_adjoint_ad_parity [exAdjOp] (zero_state 1) (fun _ => 0) [] "t"
    (by
      intro op hop
      rw [List.mem_singleton] at hop
      subst hop
      simp [exAdjOp])
    (by
      intro op hop r c
      rw [List.mem_singleton] at hop
      subst hop
      simp only [exAdjOp, Matrix.zero_apply]
      exact hasDerivAt_const _ _)
    (by
      show (obs_mat ([] : List (ObsOp 1))).IsHermitian
      rw [obs_mat, List.map_nil, matProdRev]
      exact Matrix.isHermitian_one)
